import Mathlib

/-!
Verification of the FlexGet `manipulate` plugin
(`src/flexget/plugins/modify/manipulate.py`).

The plugin is a declarative field-transformation engine.  The embedding below
mirrors the two components of the source:

* `Manipulate.on_task_start` — the Job Compiler: it walks the configuration
  (a list of items, each item a mapping destination-field → rule body) and,
  for every rule body, appends the *whole item* to the job list of the phase
  that body declares (default `metainfo`).
* `Manipulate.process` — the Field Evaluator: for one entry and one job list
  it runs, per (field, body) pair, remove → extract → replace → change
  detection → assignment, exactly in the order of the Python code.

Python specifics are modelled explicitly:

* An entry is an association list `String × Option String`; a stored `none`
  models a stored Python `None`.  `pyGet` models `entry.get(f)` (absent and
  stored `None` both give `none`); `lookupF` models `entry[f]`, whose failure
  (Python `KeyError`) is the `none` of the surrounding `Option` monad in
  `processField`.
* `pyTruthy` models Python truthiness of the value (`None` and `""` falsy).
* Regular expressions (`re.search`, `re.sub` with flags `re.I | re.U`) are
  modelled by a small executable backtracking engine over a pattern AST
  (`Regex`): greedy `star`, alternation, numbered capture groups with
  Python's "last capture wins" rule, leftmost search, non-overlapping global
  substitution with backreference expansion in the template, and
  case-insensitive literal characters.
-/

namespace Manipulate

/-- Character-level atoms of a pattern: a literal character (matched
case-insensitively, modelling flag `re.I`), the class `\d`, the class `\s`,
and `.` (any character except newline). -/
inductive CharM where
  | lit (c : Char)
  | digit
  | space
  | anyc
  deriving DecidableEq

/-- Pattern AST for the regular expressions appearing in `extract` and
`replace.regexp` configuration values. -/
inductive Regex where
  | eps
  | ch (m : CharM)
  | seq (a b : Regex)
  | alt (a b : Regex)
  | star (a : Regex)
  | group (a : Regex)
  deriving DecidableEq

/-- Shorthand for `r+`, one-or-more, as `r` followed by `r*`. -/
def rplus (r : Regex) : Regex := .seq r (.star r)

/-- Does the atom match one character?  Literals compare case-insensitively,
modelling the `re.I` flag the plugin always passes. -/
def charMatches : CharM → Char → Bool
  | .lit a, c => a.toLower == c.toLower
  | .digit, c => c.isDigit
  | .space, c => c.isWhitespace
  | .anyc, c => !(c == '\n')

/-- Number of capturing groups of a pattern (Python numbers groups by the
order of their opening parenthesis). -/
def numGroups : Regex → Nat
  | .eps => 0
  | .ch _ => 0
  | .seq a b => numGroups a + numGroups b
  | .alt a b => numGroups a + numGroups b
  | .star a => numGroups a
  | .group a => numGroups a + 1

/-- Node count of a pattern, used only to pick a sufficient fuel. -/
def regexSize : Regex → Nat
  | .eps => 1
  | .ch _ => 1
  | .seq a b => regexSize a + regexSize b + 1
  | .alt a b => regexSize a + regexSize b + 1
  | .star a => regexSize a + 1
  | .group a => regexSize a + 1

/-- Raw capture store: group index paired with captured text; the most recent
capture for an index is listed first ("last capture wins", as in Python). -/
abbrev Caps := List (Nat × String)

/-- Value of group `i` in a capture store, `none` when the group never
participated in the match. -/
def capLookup (caps : Caps) (i : Nat) : Option String :=
  match caps.find? (fun p => p.1 == i) with
  | some p => some p.2
  | none => none

/-- Backtracking matcher in continuation-passing style.  `idx` is the number
of the next capture group, `caps` the captures so far; the continuation
receives the remaining input and the captures.  Greedy `star` first tries one
more (progress-making) iteration, mirroring the leftmost-longest behaviour of
Python's backtracking engine on these patterns.  `fuel` only guarantees
termination and is chosen large enough by `mfuel`. -/
def mrun (fuel : Nat) (r : Regex) (idx : Nat) (s : List Char) (caps : Caps)
    (k : List Char → Caps → Option (List Char × Caps)) : Option (List Char × Caps) :=
  match fuel with
  | 0 => none
  | fuel + 1 =>
    match r with
    | .eps => k s caps
    | .ch m =>
      match s with
      | [] => none
      | c :: rest => if charMatches m c then k rest caps else none
    | .seq a b =>
      mrun fuel a idx s caps (fun s1 c1 => mrun fuel b (idx + numGroups a) s1 c1 k)
    | .alt a b =>
      match mrun fuel a idx s caps k with
      | some res => some res
      | none => mrun fuel b (idx + numGroups a) s caps k
    | .star a =>
      match mrun fuel a idx s caps (fun s1 c1 =>
          if s1.length < s.length then mrun fuel (.star a) idx s1 c1 k else none) with
      | some res => some res
      | none => k s caps
    | .group a =>
      mrun fuel a (idx + 1) s caps (fun s1 c1 =>
        k s1 ((idx, String.mk (s.take (s.length - s1.length))) :: c1))

/-- Fuel that is ample for every pattern/input this development evaluates. -/
def mfuel (r : Regex) (s : List Char) : Nat :=
  (regexSize r + 2) * (s.length + 2)

/-- Try to match `r` against a prefix of `s`; on success return the length of
the matched prefix and the captures. -/
def matchAt (r : Regex) (s : List Char) : Option (Nat × Caps) :=
  match mrun (mfuel r s) r 0 s [] (fun s1 c1 => some (s1, c1)) with
  | some (rest, caps) => some (s.length - rest.length, caps)
  | none => none

/-- Leftmost search, as `re.search`: try `matchAt` at every start position in
order; return start position, match length and captures of the first hit. -/
def searchList (r : Regex) : List Char → Option (Nat × Nat × Caps)
  | [] =>
    match matchAt r [] with
    | some (n, caps) => some (0, n, caps)
    | none => none
  | c :: rest =>
    match matchAt r (c :: rest) with
    | some (n, caps) => some (0, n, caps)
    | none =>
      match searchList r rest with
      | some (p, n, caps) => some (p + 1, n, caps)
      | none => none

/-- Model of `re.search(pattern, value, re.I | re.U)` followed by
`match.groups()`: `none` when the pattern does not occur in `value`, otherwise
the list of all capture groups in pattern order (`none` for a group that did
not participate). -/
def reSearch (r : Regex) (v : String) : Option (List (Option String)) :=
  match searchList r v.data with
  | some (_, _, caps) => some ((List.range (numGroups r)).map (capLookup caps))
  | none => none

/-- Expansion of a substitution template against the captures of one match:
`\n` (for a digit `1`–`9`) inserts group `n` (empty when the group did not
participate), `\\` is a literal backslash, everything else is literal. -/
def expandTemplate (caps : Caps) : List Char → List Char
  | [] => []
  | '\\' :: c :: rest =>
    if c == '\\' then '\\' :: expandTemplate caps rest
    else if '1' ≤ c ∧ c ≤ '9' then
      (match capLookup caps (c.toNat - '1'.toNat) with
       | some g => g.data
       | none => []) ++ expandTemplate caps rest
    else '\\' :: c :: expandTemplate caps rest
  | c :: rest => c :: expandTemplate caps rest

/-- Global substitution scan, as `re.sub`: at each position try a match; a
non-empty match is replaced by the expanded template and skipped over, an
empty match inserts the expanded template and keeps the current character,
and a position with no match is copied verbatim. -/
def subRun (r : Regex) (fmt : List Char) : Nat → List Char → List Char
  | 0, s => s
  | fuel + 1, s =>
    match matchAt r s with
    | none =>
      match s with
      | [] => []
      | c :: rest => c :: subRun r fmt fuel rest
    | some (0, caps) =>
      match s with
      | [] => expandTemplate caps fmt
      | c :: rest => expandTemplate caps fmt ++ c :: subRun r fmt fuel rest
    | some (n + 1, caps) =>
      expandTemplate caps fmt ++ subRun r fmt fuel (s.drop (n + 1))

/-- Model of `re.compile(pattern, re.I | re.U).sub(format, value)`. -/
def reSub (r : Regex) (fmt : String) (v : String) : String :=
  String.mk (subRun r fmt.data (v.data.length + 1) v.data)

/-- Evaluation phase enumeration of the schema (`metainfo` is the default). -/
inductive Phase where
  | metainfo
  | filter
  | modify
  deriving DecidableEq

/-- Embedding of a `replace` configuration object (`regexp` and `format`). -/
structure ReplaceConfig where
  regexp : Regex
  format : String
  deriving DecidableEq

/-- Embedding of one rule body.  Every key of the schema is optional;
`fromField` embeds the key `from` (a Lean keyword).  The pattern-valued keys
hold the AST of the already-validated pattern string. -/
structure RuleConfig where
  phase : Option Phase := none
  fromField : Option String := none
  extract : Option Regex := none
  separator : Option String := none
  remove : Option Bool := none
  replace : Option ReplaceConfig := none
  deriving DecidableEq

/-- One configuration item: a mapping destination field → rule body, in
insertion order (Python `dict.items()`). -/
abbrev Item := List (String × RuleConfig)

/-- An entry: an association list field → stored value, where a stored `none`
models a stored Python `None`. -/
abbrev Entry := List (String × Option String)

/-- First binding of a field, `none` when the field is absent: the raw lookup
underlying both `entry[f]` and `f in entry`. -/
def lookupF : Entry → String → Option (Option String)
  | [], _ => none
  | (k, v) :: rest, f => if k = f then some v else lookupF rest f

/-- Model of `entry.get(f)`: `none` both for an absent field and for a stored
`None`. -/
def pyGet (e : Entry) (f : String) : Option String :=
  match lookupF e f with
  | some v => v
  | none => none

/-- Model of `f in entry`. -/
def containsF (e : Entry) (f : String) : Bool :=
  (lookupF e f).isSome

/-- Model of `del entry[f]` (removes every binding of `f`). -/
def eraseF : Entry → String → Entry
  | [], _ => []
  | (k, v) :: rest, f => if k = f then eraseF rest f else (k, v) :: eraseF rest f

/-- Model of `entry[f] = v`: overwrite the first binding in place, or append
a new binding. -/
def setF : Entry → String → Option String → Entry
  | [], f, v => [(f, v)]
  | (k, w) :: rest, f, v => if k = f then (f, v) :: rest else (k, w) :: setF rest f v

/-- Python truthiness of an optional string (`None` and `""` are falsy). -/
def pyTruthy : Option String → Bool
  | none => false
  | some s => !(s == "")

/-- Diagnostic emitted when `extract` finds no usable source value
(`log.warning('Cannot extract, field ... is not present')`). -/
def cannotExtract (f : String) : String :=
  "Cannot extract, field `" ++ f ++ "` is not present"

/-- Diagnostic emitted when `replace` finds no usable source value. -/
def cannotReplace (f : String) : String :=
  "Cannot replace, field `" ++ f ++ "` is not present"

/-- State threaded through `process`: the entry being mutated, the running
`modified` flag, and the diagnostics emitted so far. -/
structure ProcState where
  entry : Entry
  modified : Bool
  diags : List String
  deriving DecidableEq

/-- Model of Python `str.strip()`: drop leading and trailing whitespace.
Written structurally over the character list (rather than `String.trim`,
whose auxiliary functions do not reduce inside the kernel). -/
def pyStrip (s : String) : String :=
  String.mk (((s.data.dropWhile Char.isWhitespace).reverse.dropWhile
    Char.isWhitespace).reverse)

/-- The extract step on a present value: `match = re.search(...)`; on a match
the non-`None` groups are joined with the separator and stripped, on no match
the value is returned unchanged. -/
def extractValue (pat : Regex) (sep : String) (v : String) : String :=
  match reSearch pat v with
  | some groups => pyStrip (String.intercalate sep (groups.filterMap id))
  | none => v

/-- The replace step on a present value: global substitution then `strip()`. -/
def replaceValue (rc : ReplaceConfig) (v : String) : String :=
  pyStrip (reSub rc.regexp rc.format v)

/-- Change detection and unconditional assignment, the tail of the loop body:
`if from_field != field or entry[field] != field_value: modified = True` then
`entry[field] = field_value`.  The lookup `entry[field]` is only evaluated
when `from_field == field` (Python short-circuit) and raises `KeyError` —
modelled as `none` — when the destination is absent. -/
def finishAssign (st : ProcState) (ff field : String) (fv : Option String) :
    Option ProcState :=
  if ff = field then
    match lookupF st.entry field with
    | none => none
    | some old => some ⟨setF st.entry field fv, st.modified || decide (old ≠ fv), st.diags⟩
  else
    some ⟨setF st.entry field fv, true, st.diags⟩

/-- The replace step of the loop body: skip the field with a diagnostic when
the (post-extract) value is falsy, otherwise substitute, strip and fall
through to assignment. -/
def replaceStep (st : ProcState) (ff field : String) (cfg : RuleConfig)
    (fv : Option String) : Option ProcState :=
  match cfg.replace with
  | none => finishAssign st ff field fv
  | some rc =>
    if pyTruthy fv then
      finishAssign st ff field (some (replaceValue rc (fv.getD "")))
    else
      some ⟨st.entry, st.modified, st.diags ++ [cannotReplace ff]⟩

/-- One iteration of the inner loop of `Manipulate.process` for a
`(field, config)` pair: source resolution, then remove (terminal), then
extract (skipping the field when the source is falsy), then replace, then
change detection and assignment. -/
def processField (st : ProcState) (field : String) (cfg : RuleConfig) :
    Option ProcState :=
  let ff := cfg.fromField.getD field
  let fv := pyGet st.entry ff
  if cfg.remove.getD false then
    if containsF st.entry field then
      some ⟨eraseF st.entry field, true, st.diags⟩
    else
      some st
  else
    match cfg.extract with
    | none => replaceStep st ff field cfg fv
    | some pat =>
      if pyTruthy fv then
        replaceStep st ff field cfg
          (some (extractValue pat (cfg.separator.getD " ") (fv.getD "")))
      else
        some ⟨st.entry, st.modified, st.diags ++ [cannotExtract ff]⟩

/-- All `(field, config)` pairs of one item, in order. -/
def processItem (st : ProcState) : Item → Option ProcState
  | [] => some st
  | fb :: rest =>
    match processField st fb.1 fb.2 with
    | some st2 => processItem st2 rest
    | none => none

/-- All items of a job list, in order. -/
def processJobs (st : ProcState) : List Item → Option ProcState
  | [] => some st
  | item :: rest =>
    match processItem st item with
    | some st2 => processJobs st2 rest
    | none => none

/-- Model of `Manipulate.process(entry, jobs)`: runs the job list on the entry
with `modified = False` and no diagnostics; the result state carries the
mutated entry, the return value (`modified`) and the emitted diagnostics.
`none` models an uncaught Python exception escaping `process`. -/
def process (entry : Entry) (jobs : List Item) : Option ProcState :=
  processJobs ⟨entry, false, []⟩ jobs

/-- Phase of a rule body: `item_config.get('phase', 'metainfo')`. -/
def phaseOf (cfg : RuleConfig) : Phase :=
  cfg.phase.getD .metainfo

/-- Inner loop of `on_task_start`: for every body of `item` whose phase is
`p`, append the whole `item` once. -/
def phaseCopies (item : Item) (bodies : List (String × RuleConfig)) (p : Phase) :
    List Item :=
  match bodies with
  | [] => []
  | fb :: rest =>
    if phaseOf fb.2 = p then item :: phaseCopies item rest p
    else phaseCopies item rest p

/-- Model of `Manipulate.on_task_start`, read as the function
phase ↦ `self.phase_jobs[phase]`: for every item of the configuration and for
every rule body of that item, the whole item is appended to the job list of
that body's phase. -/
def on_task_start (config : List Item) (p : Phase) : List Item :=
  match config with
  | [] => []
  | item :: rest => phaseCopies item item p ++ on_task_start rest p

/-- Per-entry effect of dispatching phase `p`: the phase handlers
(`on_task_metainfo`, `on_task_filter`, `on_task_modify`) each run
`process(entry, self.phase_jobs[phase])` on every entry of the task. -/
def runPhase (config : List Item) (p : Phase) (entry : Entry) : Option ProcState :=
  process entry (on_task_start config p)

/-- A rule body that can never reach the failing `entry[field]` lookup:
it removes, or extracts, or replaces, or reads from a different field. -/
def bodySafe (field : String) (cfg : RuleConfig) : Bool :=
  cfg.remove.getD false || cfg.extract.isSome || cfg.replace.isSome ||
    decide (cfg.fromField.getD field ≠ field)

/-- AST of the documented example pattern `\[\d\d\d\d\](.*)`. -/
def patC5 : Regex :=
  .seq (.ch (.lit '[')) (.seq (.ch .digit) (.seq (.ch .digit) (.seq (.ch .digit)
    (.seq (.ch .digit) (.seq (.ch (.lit ']')) (.group (.star (.ch .anyc))))))))

/-- AST of the pattern `\s+`. -/
def patWS : Regex := rplus (.ch .space)

end Manipulate

namespace Manipulate

/-! Helper lemmas shared by the claim theorems. -/

theorem lookupF_isSome_of_truthy (e : Entry) (f : String)
    (h : pyTruthy (pyGet e f) = true) : (lookupF e f).isSome = true := by
  unfold pyGet at h
  cases hl : lookupF e f with
  | none => rw [hl] at h; simp [pyTruthy] at h
  | some v => simp

theorem lookupF_of_pyGet_some (e : Entry) (f : String) (v : String)
    (h : pyGet e f = some v) : lookupF e f = some (some v) := by
  unfold pyGet at h
  cases hl : lookupF e f with
  | none => rw [hl] at h; exact absurd h (by simp)
  | some w => rw [hl] at h; simp at h; rw [h]

theorem containsF_eraseF (e : Entry) (f : String) :
    containsF (eraseF e f) f = false := by
  induction e with
  | nil => rfl
  | cons kv rest ih =>
    obtain ⟨k, v⟩ := kv
    by_cases hk : k = f
    · simpa [eraseF, hk] using ih
    · simpa [eraseF, containsF, lookupF, hk] using ih

theorem eraseF_of_not_contains (e : Entry) (f : String)
    (h : containsF e f = false) : eraseF e f = e := by
  induction e with
  | nil => rfl
  | cons kv rest ih =>
    obtain ⟨k, v⟩ := kv
    by_cases hk : k = f
    · simp [containsF, lookupF, hk] at h
    · have hr : containsF rest f = false := by
        simpa [containsF, lookupF, hk] using h
      simp [eraseF, hk, ih hr]

theorem finishAssign_isSome_of (st : ProcState) (ff field : String)
    (fv : Option String)
    (h : ff = field → (lookupF st.entry field).isSome = true) :
    (finishAssign st ff field fv).isSome = true := by
  unfold finishAssign
  by_cases hf : ff = field
  · cases hl : lookupF st.entry field with
    | none => have := h hf; rw [hl] at this; simp at this
    | some old => simp [hf, hl]
  · simp [hf]

theorem replaceStep_isSome_of (st : ProcState) (ff field : String)
    (cfg : RuleConfig) (fv : Option String)
    (h : ff = field → (lookupF st.entry field).isSome = true) :
    (replaceStep st ff field cfg fv).isSome = true := by
  unfold replaceStep
  cases hr : cfg.replace with
  | none => exact finishAssign_isSome_of st ff field fv h
  | some rc =>
    by_cases ht : pyTruthy fv
    · simpa [ht] using finishAssign_isSome_of st ff field _ h
    · simp [ht]

theorem processField_isSome_of_bodySafe (st : ProcState) (field : String)
    (cfg : RuleConfig) (h : bodySafe field cfg = true) :
    (processField st field cfg).isSome = true := by
  unfold processField
  by_cases hrem : cfg.remove.getD false
  · by_cases hc : containsF st.entry field <;> simp [hrem, hc]
  · simp only [hrem, Bool.false_eq_true, if_false]
    cases hx : cfg.extract with
    | some pat =>
      by_cases ht : pyTruthy (pyGet st.entry (cfg.fromField.getD field))
      · simp only [ht, if_true]
        exact replaceStep_isSome_of _ _ _ _ _
          (fun hf => lookupF_isSome_of_truthy _ _ (by rw [← hf]; exact ht))
      · simp [ht]
    | none =>
      cases hr : cfg.replace with
      | some rc =>
        by_cases ht : pyTruthy (pyGet st.entry (cfg.fromField.getD field))
        · exact replaceStep_isSome_of _ _ _ _ _
            (fun hf => lookupF_isSome_of_truthy _ _ (by rw [← hf]; exact ht))
        · simp [replaceStep, hr, ht]
      | none =>
        have hne : cfg.fromField.getD field ≠ field := by
          unfold bodySafe at h
          simpa [hrem, hx, hr] using h
        simp [replaceStep, hr, finishAssign, hne]

theorem processItem_isSome_of_bodySafe (st : ProcState) (item : Item)
    (h : ∀ fb ∈ item, bodySafe fb.1 fb.2 = true) :
    (processItem st item).isSome = true := by
  induction item generalizing st with
  | nil => simp [processItem]
  | cons fb rest ih =>
    have h1 := processField_isSome_of_bodySafe st fb.1 fb.2 (h fb (by simp))
    cases hp : processField st fb.1 fb.2 with
    | none => rw [hp] at h1; simp at h1
    | some st2 =>
      simpa [processItem, hp] using ih st2 (fun x hx => h x (by simp [hx]))

theorem processJobs_isSome_of_bodySafe (st : ProcState) (jobs : List Item)
    (h : ∀ item ∈ jobs, ∀ fb ∈ item, bodySafe fb.1 fb.2 = true) :
    (processJobs st jobs).isSome = true := by
  induction jobs generalizing st with
  | nil => simp [processJobs]
  | cons item rest ih =>
    have h1 := processItem_isSome_of_bodySafe st item (h item (by simp))
    cases hp : processItem st item with
    | none => rw [hp] at h1; simp at h1
    | some st2 =>
      simpa [processJobs, hp] using ih st2 (fun x hx => h x (by simp [hx]))

end Manipulate

namespace Manipulate

theorem mem_phaseCopies {item0 item : Item} {bodies : List (String × RuleConfig)}
    {p : Phase} (h : item ∈ phaseCopies item0 bodies p) :
    item = item0 ∧ ∃ fb ∈ bodies, phaseOf fb.2 = p := by
  induction bodies with
  | nil => simp [phaseCopies] at h
  | cons fb rest ih =>
    unfold phaseCopies at h
    by_cases hp : phaseOf fb.2 = p
    · rw [if_pos hp] at h
      rcases List.mem_cons.mp h with h1 | h1
      · exact ⟨h1, fb, by simp, hp⟩
      · obtain ⟨he, g, hg, hgp⟩ := ih h1
        exact ⟨he, g, by simp [hg], hgp⟩
    · rw [if_neg hp] at h
      obtain ⟨he, g, hg, hgp⟩ := ih h
      exact ⟨he, g, by simp [hg], hgp⟩

/-- C1: for a rule body with `extract` or `replace` and no `remove`, when the
resolved source field is absent or its value is empty (falsy), the field
evaluation leaves the entry (in particular the destination field) and the
modified flag untouched, emits exactly one diagnostic, and the job list
continues with the next field/rule from that unchanged state. -/
theorem c1_missing_source_skips_field
    (entry : Entry) (m : Bool) (d : List String) (field : String) (cfg : RuleConfig)
    (hrem : cfg.remove.getD false = false)
    (hop : (cfg.extract.isSome || cfg.replace.isSome) = true)
    (hmiss : pyTruthy (pyGet entry (cfg.fromField.getD field)) = false) :
    processField ⟨entry, m, d⟩ field cfg
      = some ⟨entry, m, d ++ [if cfg.extract.isSome then
          cannotExtract (cfg.fromField.getD field) else
          cannotReplace (cfg.fromField.getD field)]⟩
    ∧ ∀ js : List Item,
        processJobs ⟨entry, m, d⟩ ([(field, cfg)] :: js)
          = processJobs ⟨entry, m, d ++ [if cfg.extract.isSome then
              cannotExtract (cfg.fromField.getD field) else
              cannotReplace (cfg.fromField.getD field)]⟩ js := by
  have h1 : processField ⟨entry, m, d⟩ field cfg
      = some ⟨entry, m, d ++ [if cfg.extract.isSome then
          cannotExtract (cfg.fromField.getD field) else
          cannotReplace (cfg.fromField.getD field)]⟩ := by
    unfold processField
    cases hx : cfg.extract with
    | some pat => simp [hrem, hx, hmiss]
    | none =>
      cases hr : cfg.replace with
      | none => rw [hx, hr] at hop; simp at hop
      | some rc => simp [hrem, hx, hr, hmiss, replaceStep]
  refine ⟨h1, fun js => ?_⟩
  simp [processJobs, processItem, h1]

theorem c1_witness :
    processField ⟨[], false, []⟩ "a" { extract := some (.ch .digit) }
      = some ⟨[], false, [cannotExtract "a"]⟩ := by
  have h := c1_missing_source_skips_field [] false [] "a"
    { extract := some (.ch .digit) } rfl (by decide) (by decide)
  simpa using h.1

/-- C2, refuted as stated: `process` can raise.  For the schema-valid job
list `[{"x": {}}]` (a body with no `remove`, `extract` or `replace`, source
defaulting to the destination) and an entry lacking the field `x`, the
change-detection lookup `entry['x']` hits a missing key (Python `KeyError`),
modelled here by `process` returning `none`. -/
theorem c2_counterexample :
    process [] [[("x", ({} : RuleConfig))]] = none := rfl

/-- C2 amended: `process` raises no exception provided every rule body either
removes, or extracts, or replaces, or reads from a source field different
from its destination; only a body with none of these reaching the
change-detection lookup of an absent destination can raise. -/
theorem c2_amended_safe_bodies_never_raise
    (entry : Entry) (jobs : List Item)
    (h : ∀ item ∈ jobs, ∀ fb ∈ item, bodySafe fb.1 fb.2 = true) :
    (process entry jobs).isSome = true :=
  processJobs_isSome_of_bodySafe ⟨entry, false, []⟩ jobs h

theorem c2_amended_witness :
    (process [] [[("a", ({ fromField := some "t" } : RuleConfig))]]).isSome = true :=
  c2_amended_safe_bodies_never_raise [] [[("a", { fromField := some "t" })]] (by decide)

/-- C3, refuted as stated: the Job Compiler appends the *whole item* once per
body phase, and `process` never filters by phase.  In the configuration below
the body for destination `b` declares phase `filter`, yet dispatching only
the `metainfo` phase evaluates it: the destination `b` gets written. -/
theorem c3_counterexample :
    phaseOf ({ phase := some .filter, fromField := some "t" } : RuleConfig)
      = Phase.filter
    ∧ runPhase
        [[("a", { fromField := some "t" }),
          ("b", { phase := some .filter, fromField := some "t" })]]
        Phase.metainfo [("t", some "x")]
      = some ⟨[("t", some "x"), ("a", some "x"), ("b", some "x")], true, []⟩ :=
  ⟨rfl, rfl⟩

/-- C3 amended: an item is placed in the job list of a phase (and hence
evaluated at that dispatch) only if at least one of its bodies declares that
phase; order within a phase preserves configuration order, but an item whose
bodies declare several phases is evaluated whole — including its
other-phase bodies — at each such dispatch. -/
theorem c3_amended_jobs_phase_declared
    (config : List Item) (p : Phase) (item : Item)
    (h : item ∈ on_task_start config p) :
    ∃ fb ∈ item, phaseOf fb.2 = p := by
  induction config with
  | nil => simp [on_task_start] at h
  | cons it rest ih =>
    unfold on_task_start at h
    rcases List.mem_append.mp h with h1 | h1
    · obtain ⟨he, hb⟩ := mem_phaseCopies h1
      subst he; exact hb
    · exact ih h1

theorem c3_amended_witness :
    ∃ fb ∈ ([("a", ({} : RuleConfig))] : Item), phaseOf fb.2 = Phase.metainfo :=
  c3_amended_jobs_phase_declared [[("a", {})]] Phase.metainfo [("a", {})] (by decide)

/-- C4: a rule body with `remove: true` deletes the destination field (absent
afterwards), reports the field as modified exactly when it existed before,
and skips the extract/replace/assignment steps entirely — the result does not
depend on any other key of the body; on a singleton job list `process`
returns `true` iff the destination existed before the call. -/
theorem c4_remove_terminal
    (entry : Entry) (field : String) (cfg : RuleConfig) (st : ProcState)
    (h : cfg.remove = some true) :
    processField st field cfg
      = some ⟨eraseF st.entry field, st.modified || containsF st.entry field, st.diags⟩
    ∧ containsF (eraseF st.entry field) field = false
    ∧ process entry [[(field, cfg)]]
      = some ⟨eraseF entry field, containsF entry field, []⟩ := by
  have key : ∀ s : ProcState, processField s field cfg
      = some ⟨eraseF s.entry field, s.modified || containsF s.entry field, s.diags⟩ := by
    intro s
    unfold processField
    by_cases hc : containsF s.entry field
    · simp [h, hc]
    · simp [h, hc, eraseF_of_not_contains _ _ (by simpa using hc)]
  refine ⟨key st, containsF_eraseF _ _, ?_⟩
  simp [process, processJobs, processItem, key ⟨entry, false, []⟩]

theorem c4_witness :
    processField ⟨[("x", some "1")], false, []⟩ "x" ({ remove := some true } : RuleConfig)
      = some ⟨eraseF [("x", some "1")] "x",
          false || containsF [("x", some "1")] "x", []⟩
    ∧ containsF (eraseF [("x", some "1")] "x") "x" = false
    ∧ process [("x", some "1")] [[("x", ({ remove := some true } : RuleConfig))]]
      = some ⟨eraseF [("x", some "1")] "x", containsF [("x", some "1")] "x", []⟩ :=
  c4_remove_terminal [("x", some "1")] "x" { remove := some true }
    ⟨[("x", some "1")], false, []⟩ rfl

end Manipulate

namespace Manipulate

theorem extractValue_of_no_groups (pat : Regex) (sep v : String)
    (h0 : numGroups pat = 0) (h : reSearch pat v ≠ none) :
    extractValue pat sep v = "" := by
  unfold extractValue
  cases hs : reSearch pat v with
  | none => exact absurd hs h
  | some gs =>
    have hgs : gs = [] := by
      unfold reSearch at hs
      cases hq : searchList pat v.data with
      | none => rw [hq] at hs; simp at hs
      | some t =>
        rw [hq] at hs
        simp at hs
        rw [← hs, h0]
        simp
    subst hgs
    rfl

/-- C5: the documented extract pattern `\[\d\d\d\d\](.*)` applied with the
default separator to the value `"[1999]Some Show"` yields `"Some Show"`
(all non-absent groups joined and trimmed), both at the extract step and
through the whole evaluator; and literal characters of a pattern match
case-insensitively (the `re.I` flag the plugin always passes). -/
theorem c5_extract_match_example :
    extractValue patC5 " " "[1999]Some Show" = "Some Show"
    ∧ process [("title", some "[1999]Some Show")]
        [[("title", ({ extract := some patC5 } : RuleConfig))]]
      = some ⟨[("title", some "Some Show")], true, []⟩
    ∧ ∀ c d : Char, charMatches (.lit c) d = (c.toLower == d.toLower) :=
  ⟨by decide, by decide, fun c d => rfl⟩

/-- C6: when the extract pattern does not occur in the (non-empty) source
value, the extract step returns the pre-extract value unchanged — a no-op,
not a failure. -/
theorem c6_extract_no_match_identity (pat : Regex) (sep v : String)
    (_hv : v ≠ "") (h : reSearch pat v = none) :
    extractValue pat sep v = v := by
  unfold extractValue
  rw [h]

theorem c6_witness :
    ("abc" : String) ≠ ""
    ∧ reSearch (.ch .digit) "abc" = none
    ∧ extractValue (.ch .digit) " " "abc" = "abc" :=
  ⟨by decide, by decide,
    c6_extract_no_match_identity (.ch .digit) " " "abc" (by decide) (by decide)⟩

/-- C7: the replace rule `regexp: \s+`, `format: " "` turns `"a   b"` into
`"a b"`, both at the replace step and through the whole evaluator; and in
general the replace step is exactly global substitution of the pattern by
the format template followed by trimming surrounding whitespace. -/
theorem c7_replace_example :
    replaceValue ⟨patWS, " "⟩ "a   b" = "a b"
    ∧ process [("t", some "a   b")]
        [[("t", ({ replace := some ⟨patWS, " "⟩ } : RuleConfig))]]
      = some ⟨[("t", some "a b")], true, []⟩
    ∧ ∀ (rc : ReplaceConfig) (v : String),
        replaceValue rc v = pyStrip (reSub rc.regexp rc.format v) :=
  ⟨by decide, by decide, fun rc v => rfl⟩

/-- C8: a rename/copy rule (explicit `from` different from the destination,
no remove/extract/replace) always reports the field modified and assigns the
raw source value, even when the destination already holds that value; and in
general, when source and destination coincide, the field counts as modified
iff the destination's existing value differs from the computed value. -/
theorem c8_rename_always_modified :
    (∀ (entry : Entry) (m : Bool) (d : List String) (field src : String)
        (cfg : RuleConfig),
        cfg.remove.getD false = false → cfg.extract = none → cfg.replace = none →
        cfg.fromField = some src → src ≠ field →
        processField ⟨entry, m, d⟩ field cfg
          = some ⟨setF entry field (pyGet entry src), true, d⟩)
    ∧ (∀ (e : Entry) (m : Bool) (d : List String) (field : String)
        (fv old : Option String),
        lookupF e field = some old →
        finishAssign ⟨e, m, d⟩ field field fv
          = some ⟨setF e field fv, m || decide (old ≠ fv), d⟩) := by
  constructor
  · intro entry m d field src cfg hrem hx hr hf hne
    simp [processField, hrem, hx, hf, replaceStep, hr, finishAssign, hne]
  · intro e m d field fv old hl
    simp [finishAssign, hl]

theorem c8_witness :
    processField ⟨[("title", some "x"), ("show_title", some "x")], false, []⟩
        "show_title" ({ fromField := some "title" } : RuleConfig)
      = some ⟨setF [("title", some "x"), ("show_title", some "x")] "show_title"
          (pyGet [("title", some "x"), ("show_title", some "x")] "title"),
          true, []⟩
    ∧ finishAssign ⟨[("t", some "x")], false, []⟩ "t" "t" (some "x")
      = some ⟨setF [("t", some "x")] "t" (some "x"),
          false || decide ((some "x" : Option String) ≠ some "x"), []⟩ :=
  ⟨c8_rename_always_modified.1 [("title", some "x"), ("show_title", some "x")]
      false [] "show_title" "title" { fromField := some "title" } rfl rfl rfl rfl
      (by decide),
   c8_rename_always_modified.2 [("t", some "x")] false [] "t" (some "x")
      (some "x") rfl⟩

end Manipulate

namespace Manipulate

/-- C9: a rule whose extract pattern has no capturing groups and which
matches the (non-empty) source value joins zero groups: the computed value is
the empty string.  Without `replace` the destination is set to `""` (and the
field counts as modified); with `replace` present the empty post-extract
value trips the missing-source guard, so the field is skipped with a
diagnostic and the destination is left untouched. -/
theorem c9_groupless_extract :
    (∀ (entry : Entry) (m : Bool) (d : List String) (field : String)
        (cfg : RuleConfig) (pat : Regex) (v : String),
        cfg.remove.getD false = false → cfg.extract = some pat →
        numGroups pat = 0 → cfg.replace = none →
        pyGet entry (cfg.fromField.getD field) = some v → v ≠ "" →
        reSearch pat v ≠ none →
        processField ⟨entry, m, d⟩ field cfg
          = some ⟨setF entry field (some ""), true, d⟩)
    ∧ (∀ (entry : Entry) (m : Bool) (d : List String) (field : String)
        (cfg : RuleConfig) (pat : Regex) (v : String) (rc : ReplaceConfig),
        cfg.remove.getD false = false → cfg.extract = some pat →
        numGroups pat = 0 → cfg.replace = some rc →
        pyGet entry (cfg.fromField.getD field) = some v → v ≠ "" →
        reSearch pat v ≠ none →
        processField ⟨entry, m, d⟩ field cfg
          = some ⟨entry, m, d ++ [cannotReplace (cfg.fromField.getD field)]⟩) := by
  constructor
  · intro entry m d field cfg pat v hrem hx hg hr hv hvne hsearch
    have hev : extractValue pat (cfg.separator.getD " ") v = "" :=
      extractValue_of_no_groups pat _ v hg hsearch
    by_cases hff : cfg.fromField.getD field = field
    · have hv2 : pyGet entry field = some v := by rw [← hff]; exact hv
      have hl : lookupF entry field = some (some v) :=
        lookupF_of_pyGet_some entry field v hv2
      simp [processField, hrem, hx, hff, hv2, hev, replaceStep, hr, finishAssign,
        hl, pyTruthy, hvne]
    · simp [processField, hrem, hx, hv, hev, replaceStep, hr, finishAssign, hff,
        pyTruthy, hvne]
  · intro entry m d field cfg pat v rc hrem hx hg hr hv hvne hsearch
    have hev : extractValue pat (cfg.separator.getD " ") v = "" :=
      extractValue_of_no_groups pat _ v hg hsearch
    simp [processField, hrem, hx, hv, hev, replaceStep, hr, pyTruthy]
    exact fun h => absurd h hvne

theorem c9_witness :
    processField ⟨[("n", some "7")], false, []⟩ "n"
        ({ extract := some (.ch .digit) } : RuleConfig)
      = some ⟨setF [("n", some "7")] "n" (some ""), true, []⟩
    ∧ processField ⟨[("n", some "7")], false, []⟩ "n"
        ({ extract := some (.ch .digit),
           replace := some ⟨patWS, " "⟩ } : RuleConfig)
      = some ⟨[("n", some "7")], false, [cannotReplace "n"]⟩ :=
  ⟨c9_groupless_extract.1 [("n", some "7")] false [] "n"
      { extract := some (.ch .digit) } (.ch .digit) "7" rfl rfl rfl rfl
      (by decide) (by decide) (by decide),
   by
    have h := c9_groupless_extract.2 [("n", some "7")] false [] "n"
      { extract := some (.ch .digit), replace := some ⟨patWS, " "⟩ }
      (.ch .digit) "7" ⟨patWS, " "⟩ rfl rfl rfl rfl
      (by decide) (by decide) (by decide)
    simpa using h⟩

/-- C10: a rename rule (source different from destination, no
extract/replace/remove) applied to an entry lacking the source field has no
guard: `entry.get` yields the `None` sentinel, change detection short-circuits
on source ≠ destination, and the evaluator writes `None` into the destination
and counts the field as modified — the destination is not left untouched. -/
theorem c10_rename_missing_source_writes_none
    (entry : Entry) (m : Bool) (d : List String) (field src : String)
    (cfg : RuleConfig)
    (hrem : cfg.remove.getD false = false) (hx : cfg.extract = none)
    (hr : cfg.replace = none) (hf : cfg.fromField = some src)
    (hne : src ≠ field) (hlook : lookupF entry src = none) :
    processField ⟨entry, m, d⟩ field cfg = some ⟨setF entry field none, true, d⟩
    ∧ process entry [[(field, cfg)]] = some ⟨setF entry field none, true, []⟩ := by
  have hg : pyGet entry src = none := by
    unfold pyGet; rw [hlook]
  have key : ∀ (m1 : Bool) (d1 : List String),
      processField ⟨entry, m1, d1⟩ field cfg
        = some ⟨setF entry field none, true, d1⟩ := by
    intro m1 d1
    simp [processField, hrem, hx, hf, hg, replaceStep, hr, finishAssign, hne]
  exact ⟨key m d, by simp [process, processJobs, processItem, key false []]⟩

theorem c10_witness :
    processField ⟨[], false, []⟩ "dst" ({ fromField := some "title" } : RuleConfig)
      = some ⟨setF [] "dst" none, true, []⟩
    ∧ process [] [[("dst", ({ fromField := some "title" } : RuleConfig))]]
      = some ⟨setF [] "dst" none, true, []⟩ :=
  c10_rename_missing_source_writes_none [] false [] "dst" "title"
    { fromField := some "title" } rfl rfl rfl rfl (by decide) rfl

end Manipulate
